import Mathlib

/-!
Verification of the utf8_slice library: character-index-based slicing over
UTF-8 encoded text. A string is modelled as its byte sequence (`List Nat`);
the valid inputs are the encodings `utf8Bytes cs` of a list `cs` of Unicode
scalar values. The iterator `s.char_indices()` is embedded as the boundary
walk `nthCharOffset`, `s.chars().count()` as `len`, and Rust byte-range
slicing `&s[a..b]` as `List.drop a (List.take b s)`.
-/

namespace Utf8Slice

/-- Byte length of a UTF-8 encoded character, read off its leading byte.
This agrees with the width table the UTF-8 decoder uses on every leading
byte that occurs in valid UTF-8 text. -/
def utf8CharLen (b : Nat) : Nat :=
  if b < 0x80 then 1
  else if b < 0xE0 then 2
  else if b < 0xF0 then 3
  else 4

/-- The UTF-8 encoding of a Unicode scalar value. -/
def utf8Encode (c : Nat) : List Nat :=
  if c < 0x80 then [c]
  else if c < 0x800 then [0xC0 + c / 64, 0x80 + c % 64]
  else if c < 0x10000 then [0xE0 + c / 4096, 0x80 + c / 64 % 64, 0x80 + c % 64]
  else [0xF0 + c / 262144, 0x80 + c / 4096 % 64, 0x80 + c / 64 % 64, 0x80 + c % 64]

/-- The byte sequence of the string whose character sequence is `cs`. -/
def utf8Bytes (cs : List Nat) : List Nat :=
  (cs.map utf8Encode).flatten

/-- A Unicode scalar value: below 0x110000 and not a surrogate. -/
def ValidScalar (c : Nat) : Prop :=
  c < 0xD800 ∨ (0xE000 ≤ c ∧ c < 0x110000)

instance (c : Nat) : Decidable (ValidScalar c) := by
  unfold ValidScalar
  exact inferInstance

/-- Embeds `utf8_slice::len`, i.e. `s.chars().count()`: walk the byte
sequence one character at a time and count the steps. -/
def len : List Nat → Nat
  | [] => 0
  | b :: rest => 1 + len (List.drop (utf8CharLen b - 1) rest)
termination_by s => s.length
decreasing_by simp [List.length_drop]; omega

/-- Embeds `s.char_indices().nth(k)`, projected to the byte offset of the
k-th character (the character value itself is never used by the library). -/
def nthCharOffset : List Nat → Nat → Option Nat
  | [], _ => none
  | _ :: _, 0 => some 0
  | b :: rest, k + 1 =>
    (nthCharOffset (List.drop (utf8CharLen b - 1) rest) k).map (· + utf8CharLen b)
termination_by s _ => s.length
decreasing_by simp [List.length_drop]; omega

/-- Embeds `utf8_slice::slice` (src/lib.rs, lines 52-70). -/
def slice (s : List Nat) («begin» «end» : Nat) : List Nat :=
  if «end» < «begin» then []
  else
    ((nthCharOffset s «begin»).bind fun start_pos =>
      if «end» ≥ len s then some (List.drop start_pos s)
      else
        (nthCharOffset (List.drop start_pos s) («end» - «begin»)).map
          fun end_pos => List.drop start_pos (List.take (start_pos + end_pos) s)).getD []

/-- Embeds `utf8_slice::from` (src/lib.rs, lines 92-94). -/
def «from» (s : List Nat) («begin» : Nat) : List Nat :=
  slice s «begin» (len s)

/-- Embeds `utf8_slice::till` (src/lib.rs, lines 116-118). -/
def till (s : List Nat) («end» : Nat) : List Nat :=
  slice s 0 «end»

/-- Byte offset of the k-th character of the string with characters `cs`. -/
def byteOffset (cs : List Nat) (k : Nat) : Nat :=
  ((cs.take k).map fun c => (utf8Encode c).length).sum

/-- Every byte offset lying on a character boundary of `s`, including the
one-past-the-end offset. -/
def charBoundaries : List Nat → List Nat
  | [] => [0]
  | b :: rest =>
    0 :: (charBoundaries (List.drop (utf8CharLen b - 1) rest)).map (· + utf8CharLen b)
termination_by s => s.length
decreasing_by simp [List.length_drop]; omega

theorem ValidScalar.lt_limit {c : Nat} (h : ValidScalar c) : c < 0x110000 := by
  rcases h with h | ⟨_, h⟩ <;> omega

theorem utf8CharLen_pos (b : Nat) : 1 ≤ utf8CharLen b := by
  unfold utf8CharLen
  split <;> [omega; split <;> [omega; split <;> omega]]

theorem utf8Bytes_nil : utf8Bytes [] = [] := rfl

theorem utf8Bytes_cons (c : Nat) (cs : List Nat) :
    utf8Bytes (c :: cs) = utf8Encode c ++ utf8Bytes cs := by
  simp [utf8Bytes]

theorem utf8Bytes_append (cs ds : List Nat) :
    utf8Bytes (cs ++ ds) = utf8Bytes cs ++ utf8Bytes ds := by
  simp [utf8Bytes]

/-- Decomposing the byte stream at a character: the leading byte of an
encoded character announces exactly the encoded length, so the walk that
drops `utf8CharLen b - 1` bytes after the head lands on the next
character boundary. -/
theorem utf8Encode_step (c : Nat) (hc : c < 0x110000) (tail : List Nat) :
    ∃ b rest, utf8Encode c ++ tail = b :: rest ∧
      utf8CharLen b = (utf8Encode c).length ∧
      List.drop (utf8CharLen b - 1) rest = tail := by
  rcases Nat.lt_or_ge c 0x80 with h1 | h1
  · refine ⟨c, tail, ?_, ?_, ?_⟩ <;>
      simp [utf8Encode, utf8CharLen, h1]
  · rcases Nat.lt_or_ge c 0x800 with h2 | h2
    · have hb1 : ¬ (0xC0 + c / 64 < 0x80) := by omega
      have hb2 : 0xC0 + c / 64 < 0xE0 := by omega
      refine ⟨0xC0 + c / 64, (0x80 + c % 64) :: tail, ?_, ?_, ?_⟩ <;>
        simp [utf8Encode, utf8CharLen, Nat.not_lt.mpr h1, h2, hb1, hb2]
    · rcases Nat.lt_or_ge c 0x10000 with h3 | h3
      · have hb1 : ¬ (0xE0 + c / 4096 < 0x80) := by omega
        have hb2 : ¬ (0xE0 + c / 4096 < 0xE0) := by omega
        have hb3 : 0xE0 + c / 4096 < 0xF0 := by omega
        refine ⟨0xE0 + c / 4096, (0x80 + c / 64 % 64) :: (0x80 + c % 64) :: tail, ?_, ?_, ?_⟩ <;>
          simp [utf8Encode, utf8CharLen, Nat.not_lt.mpr h1, Nat.not_lt.mpr h2, h3,
            hb1, hb2, hb3]
      · have hb1 : ¬ (0xF0 + c / 262144 < 0x80) := by omega
        have hb2 : ¬ (0xF0 + c / 262144 < 0xE0) := by omega
        have hb3 : ¬ (0xF0 + c / 262144 < 0xF0) := by omega
        refine ⟨0xF0 + c / 262144,
          (0x80 + c / 4096 % 64) :: (0x80 + c / 64 % 64) :: (0x80 + c % 64) :: tail,
          ?_, ?_, ?_⟩ <;>
          simp [utf8Encode, utf8CharLen, Nat.not_lt.mpr h1, Nat.not_lt.mpr h2,
            Nat.not_lt.mpr h3, hb1, hb2, hb3]

theorem len_encode_append (c : Nat) (hc : c < 0x110000) (tail : List Nat) :
    len (utf8Encode c ++ tail) = 1 + len tail := by
  obtain ⟨b, rest, he, _, hdrop⟩ := utf8Encode_step c hc tail
  rw [he, len, hdrop]

theorem len_utf8Bytes (cs : List Nat) (h : ∀ c ∈ cs, c < 0x110000) :
    len (utf8Bytes cs) = cs.length := by
  induction cs with
  | nil => simp [utf8Bytes_nil, len]
  | cons c cs ih =>
    rw [utf8Bytes_cons, len_encode_append c (h c (by simp)),
      ih fun x hx => h x (by simp [hx])]
    simp [Nat.add_comm]

theorem nthCharOffset_encode_zero (c : Nat) (hc : c < 0x110000) (tail : List Nat) :
    nthCharOffset (utf8Encode c ++ tail) 0 = some 0 := by
  obtain ⟨b, rest, he, _, _⟩ := utf8Encode_step c hc tail
  rw [he, nthCharOffset]

theorem nthCharOffset_encode_succ (c : Nat) (hc : c < 0x110000) (tail : List Nat) (k : Nat) :
    nthCharOffset (utf8Encode c ++ tail) (k + 1) =
      (nthCharOffset tail k).map (· + (utf8Encode c).length) := by
  obtain ⟨b, rest, he, hcl, hdrop⟩ := utf8Encode_step c hc tail
  rw [he, nthCharOffset, hdrop, hcl]

theorem byteOffset_zero (cs : List Nat) : byteOffset cs 0 = 0 := by
  simp [byteOffset]

theorem byteOffset_cons_succ (c : Nat) (cs : List Nat) (k : Nat) :
    byteOffset (c :: cs) (k + 1) = (utf8Encode c).length + byteOffset cs k := by
  simp [byteOffset]

/-- The walk `char_indices().nth(k)` over an encoded string finds the byte
offset of character k exactly when k is in range. -/
theorem nthCharOffset_utf8Bytes (cs : List Nat) (h : ∀ c ∈ cs, c < 0x110000) (k : Nat) :
    nthCharOffset (utf8Bytes cs) k =
      if k < cs.length then some (byteOffset cs k) else none := by
  induction cs generalizing k with
  | nil => simp [utf8Bytes_nil, nthCharOffset]
  | cons c cs ih =>
    have hc : c < 0x110000 := h c (by simp)
    have h' : ∀ x ∈ cs, x < 0x110000 := fun x hx => h x (by simp [hx])
    cases k with
    | zero =>
      rw [utf8Bytes_cons, nthCharOffset_encode_zero c hc]
      simp [byteOffset_zero]
    | succ k =>
      rw [utf8Bytes_cons, nthCharOffset_encode_succ c hc, ih h']
      by_cases hk : k < cs.length
      · simp [hk, byteOffset_cons_succ, Nat.add_comm]
      · simp [hk]

theorem byteOffset_eq_length_take (cs : List Nat) (k : Nat) :
    byteOffset cs k = (utf8Bytes (List.take k cs)).length := by
  simp [byteOffset, utf8Bytes, Function.comp_def]

theorem byteOffset_add (cs : List Nat) (a m : Nat) :
    byteOffset cs (a + m) = byteOffset cs a + byteOffset (List.drop a cs) m := by
  simp [byteOffset, List.take_add]

theorem take_drop_utf8Bytes (cs : List Nat) (k : Nat) :
    utf8Bytes cs = utf8Bytes (List.take k cs) ++ utf8Bytes (List.drop k cs) := by
  rw [← utf8Bytes_append, List.take_append_drop]

theorem drop_byteOffset (cs : List Nat) (k : Nat) :
    List.drop (byteOffset cs k) (utf8Bytes cs) = utf8Bytes (List.drop k cs) := by
  conv_lhs => rw [take_drop_utf8Bytes cs k]
  rw [byteOffset_eq_length_take, List.drop_left]

theorem take_byteOffset (cs : List Nat) (k : Nat) :
    List.take (byteOffset cs k) (utf8Bytes cs) = utf8Bytes (List.take k cs) := by
  conv_lhs => rw [take_drop_utf8Bytes cs k]
  rw [byteOffset_eq_length_take, List.take_left]

theorem byteOffset_le_length (cs : List Nat) (k : Nat) :
    byteOffset cs k ≤ (utf8Bytes cs).length := by
  rw [byteOffset_eq_length_take, take_drop_utf8Bytes cs k, List.length_append]
  omega

theorem byteOffset_take (cs : List Nat) (k e : Nat) (h : k ≤ e) :
    byteOffset (List.take e cs) k = byteOffset cs k := by
  simp [byteOffset, List.take_take, Nat.min_eq_left h]

theorem byteOffset_mono (cs : List Nat) {a b : Nat} (h : a ≤ b) :
    byteOffset cs a ≤ byteOffset cs b := by
  have := byteOffset_add cs a (b - a)
  rw [Nat.add_sub_cancel' h] at this
  omega

/-- Master lemma: on a valid UTF-8 string with character sequence `cs`,
`slice` returns exactly the bytes of the characters `[begin, end)`. -/
theorem slice_utf8Bytes (cs : List Nat) (h : ∀ c ∈ cs, c < 0x110000) (b e : Nat) :
    slice (utf8Bytes cs) b e = utf8Bytes (List.drop b (List.take e cs)) := by
  unfold slice
  by_cases hbe : e < b
  · rw [if_pos hbe]
    rw [List.drop_eq_nil_of_le (by simp [List.length_take]; omega)]
    exact utf8Bytes_nil.symm
  · rw [if_neg hbe]
    rw [nthCharOffset_utf8Bytes cs h b]
    by_cases hb : b < cs.length
    · rw [if_pos hb]
      rw [len_utf8Bytes cs h]
      simp only [Option.some_bind]
      by_cases he : cs.length ≤ e
      · rw [if_pos he]
        simp only [Option.getD_some]
        rw [drop_byteOffset, List.take_of_length_le he]
      · rw [if_neg he]
        have he' : e < cs.length := by omega
        rw [drop_byteOffset]
        rw [nthCharOffset_utf8Bytes (cs.drop b) (fun x hx => h x (List.mem_of_mem_drop hx))]
        rw [if_pos (by simp [List.length_drop]; omega)]
        simp only [Option.map_some', Option.getD_some]
        have hadd : byteOffset cs b + byteOffset (List.drop b cs) (e - b) = byteOffset cs e := by
          rw [← byteOffset_add]
          congr 1
          omega
        rw [hadd, take_byteOffset, ← byteOffset_take cs b e (by omega), drop_byteOffset]
    · rw [if_neg hb]
      simp only [Option.none_bind, Option.getD_none]
      rw [List.drop_eq_nil_of_le (by simp [List.length_take]; omega)]
      exact utf8Bytes_nil.symm

/-- Joint induction on the boundary walk, valid for every byte list: the
offset lookup succeeds exactly on indices below the character count, and a
found offset always leaves a nonempty suffix. -/
theorem nth_len_walk : ∀ n : Nat, ∀ s : List Nat, s.length ≤ n → ∀ k : Nat,
    (nthCharOffset s k = none ↔ len s ≤ k) ∧
    (∀ p, nthCharOffset s k = some p → List.drop p s ≠ []) := by
  intro n
  induction n with
  | zero =>
    intro s hs k
    have hnil : s = [] := List.eq_nil_of_length_eq_zero (by omega)
    subst hnil
    simp [nthCharOffset, len]
  | succ n ih =>
    intro s hs k
    match s with
    | [] => simp [nthCharOffset, len]
    | b :: rest =>
      have hlen : len (b :: rest) = 1 + len (List.drop (utf8CharLen b - 1) rest) := by
        rw [len]
      have hcl := utf8CharLen_pos b
      cases k with
      | zero =>
        constructor
        · rw [nthCharOffset, hlen]
          simp
        · intro p hp
          rw [nthCharOffset] at hp
          have : p = 0 := by simpa using hp.symm
          subst this
          simp
      | succ k =>
        have hs' : (List.drop (utf8CharLen b - 1) rest).length ≤ n := by
          simp only [List.length_drop]
          simp only [List.length_cons] at hs
          omega
        have hrec := ih (List.drop (utf8CharLen b - 1) rest) hs' k
        constructor
        · rw [nthCharOffset, hlen]
          rw [Option.map_eq_none', hrec.1]
          omega
        · intro p hp
          rw [nthCharOffset] at hp
          rw [Option.map_eq_some'] at hp
          obtain ⟨p', hp', hpp⟩ := hp
          have hne := hrec.2 p' hp'
          have key : List.drop (p' + utf8CharLen b) (b :: rest)
              = List.drop p' (List.drop (utf8CharLen b - 1) rest) := by
            have h1 : p' + utf8CharLen b = (p' + (utf8CharLen b - 1)) + 1 := by omega
            rw [h1, List.drop_succ_cons, List.drop_drop]
            congr 1
            omega
          rw [← hpp, key]
          exact hne

theorem nthCharOffset_eq_none_iff (s : List Nat) (k : Nat) :
    nthCharOffset s k = none ↔ len s ≤ k :=
  (nth_len_walk s.length s le_rfl k).1

theorem nthCharOffset_some_lt_len (s : List Nat) (k p : Nat)
    (h : nthCharOffset s k = some p) : k < len s := by
  by_contra hk
  have hle : len s ≤ k := by omega
  rw [← nthCharOffset_eq_none_iff s k] at hle
  simp [h] at hle

theorem drop_nthCharOffset_ne_nil (s : List Nat) (k p : Nat)
    (h : nthCharOffset s k = some p) : List.drop p s ≠ [] :=
  (nth_len_walk s.length s le_rfl k).2 p h

theorem charBoundaries_encode (c : Nat) (hc : c < 0x110000) (tail : List Nat) :
    charBoundaries (utf8Encode c ++ tail) =
      0 :: (charBoundaries tail).map (· + (utf8Encode c).length) := by
  obtain ⟨b, rest, he, hcl, hdrop⟩ := utf8Encode_step c hc tail
  rw [he, charBoundaries, hdrop, hcl]

theorem zero_mem_charBoundaries (s : List Nat) : 0 ∈ charBoundaries s := by
  match s with
  | [] => rw [charBoundaries]; simp
  | b :: rest => rw [charBoundaries]; simp

theorem byteOffset_mem_charBoundaries (cs : List Nat) (h : ∀ c ∈ cs, c < 0x110000)
    {k : Nat} (hk : k ≤ cs.length) :
    byteOffset cs k ∈ charBoundaries (utf8Bytes cs) := by
  induction cs generalizing k with
  | nil =>
    have : k = 0 := by simpa using hk
    subst this
    rw [byteOffset_zero, utf8Bytes_nil]
    exact zero_mem_charBoundaries []
  | cons c cs ih =>
    cases k with
    | zero =>
      rw [byteOffset_zero]
      exact zero_mem_charBoundaries _
    | succ k =>
      rw [utf8Bytes_cons, charBoundaries_encode c (h c (by simp)), byteOffset_cons_succ]
      refine List.mem_cons_of_mem _ ?_
      rw [List.mem_map]
      refine ⟨byteOffset cs k, ih (fun x hx => h x (by simp [hx])) (by simpa using hk), ?_⟩
      omega

theorem utf8Bytes_ascii (cs : List Nat) (h : ∀ c ∈ cs, c < 0x80) : utf8Bytes cs = cs := by
  induction cs with
  | nil => exact utf8Bytes_nil
  | cons c cs ih =>
    rw [utf8Bytes_cons, ih fun x hx => h x (by simp [hx])]
    have hc : c < 0x80 := h c (by simp)
    simp [utf8Encode, hc]

theorem take_eq_take_min (cs : List Nat) (e : Nat) :
    List.take e cs = List.take (min e cs.length) cs := by
  rcases Nat.le_total e cs.length with he | he
  · rw [Nat.min_eq_left he]
  · rw [Nat.min_eq_right he, List.take_of_length_le he, List.take_length]

/-- Every value `slice` returns is the byte range between two character
boundaries of the input, and is itself a valid UTF-8 encoding. -/
theorem slice_is_boundary_view (cs : List Nat) (h : ∀ c ∈ cs, ValidScalar c) (b e : Nat) :
    ∃ i j, i ≤ j ∧ j ≤ (utf8Bytes cs).length ∧
      i ∈ charBoundaries (utf8Bytes cs) ∧ j ∈ charBoundaries (utf8Bytes cs) ∧
      slice (utf8Bytes cs) b e = List.drop i (List.take j (utf8Bytes cs)) ∧
      ∃ ds, (∀ c ∈ ds, ValidScalar c) ∧ slice (utf8Bytes cs) b e = utf8Bytes ds := by
  have h' : ∀ c ∈ cs, c < 0x110000 := fun c hc => (h c hc).lt_limit
  have hmaster := slice_utf8Bytes cs h' b e
  refine ⟨byteOffset cs (min b (min e cs.length)), byteOffset cs (min e cs.length),
    byteOffset_mono cs (Nat.min_le_right _ _),
    byteOffset_le_length cs _,
    byteOffset_mem_charBoundaries cs h'
      (le_trans (Nat.min_le_right _ _) (Nat.min_le_right _ _)),
    byteOffset_mem_charBoundaries cs h' (Nat.min_le_right _ _),
    ?_, List.drop b (List.take e cs),
    fun c hc => h c (List.mem_of_mem_take (List.mem_of_mem_drop hc)), hmaster⟩
  rw [hmaster, take_byteOffset,
    ← byteOffset_take cs (min b (min e cs.length)) (min e cs.length) (Nat.min_le_right _ _),
    drop_byteOffset]
  have htake : List.take e cs = List.take (min e cs.length) cs := take_eq_take_min cs e
  rw [htake]
  rcases Nat.le_total b (min e cs.length) with hb | hb
  · rw [Nat.min_eq_left hb]
  · rw [Nat.min_eq_right hb]
    have hlen : (List.take (min e cs.length) cs).length = min e cs.length := by
      rw [List.length_take, Nat.min_eq_left (Nat.min_le_right _ _)]
    rw [List.drop_eq_nil_of_le (by omega), List.drop_eq_nil_of_le (by omega)]

/-- C1: for ASCII-only text and character indices `i ≤ j ≤ length(text)`,
`slice(text, i, j)` is the byte sub-range `text[i..j]`. -/
theorem ascii_slice_eq_byte_slice (text : List Nat) (h : ∀ c ∈ text, c < 0x80)
    (i j : Nat) (hij : i ≤ j) (hj : j ≤ len text) :
    slice text i j = List.drop i (List.take j text) := by
  have hascii : utf8Bytes text = text := utf8Bytes_ascii text h
  have h' : ∀ c ∈ text, c < 0x110000 := fun c hc => lt_trans (h c hc) (by norm_num)
  calc slice text i j
      = slice (utf8Bytes text) i j := by rw [hascii]
    _ = utf8Bytes (List.drop i (List.take j text)) := slice_utf8Bytes text h' i j
    _ = List.drop i (List.take j text) :=
        utf8Bytes_ascii _ fun c hc => h c (List.mem_of_mem_take (List.mem_of_mem_drop hc))

theorem ascii_slice_eq_byte_slice_witness :
    (∀ c ∈ [104, 105, 33], c < 0x80) ∧ 1 ≤ 2 ∧ 2 ≤ len [104, 105, 33] ∧
    slice [104, 105, 33] 1 2 = List.drop 1 (List.take 2 [104, 105, 33]) :=
  ⟨by decide, by decide, by simp [len, utf8CharLen],
    ascii_slice_eq_byte_slice [104, 105, 33] (by decide) 1 2 (by decide)
      (by simp [len, utf8CharLen])⟩

/-- C2: on the text with characters `[U+0345, a, b, U+0898, x, y, z]`, the
four concrete slices from the specification. -/
theorem slice_multibyte_cases :
    slice (utf8Bytes [0x345, 97, 98, 0x898, 120, 121, 122]) 1 4
        = utf8Bytes [97, 98, 0x898] ∧
    slice (utf8Bytes [0x345, 97, 98, 0x898, 120, 121, 122]) 0 4
        = utf8Bytes [0x345, 97, 98, 0x898] ∧
    slice (utf8Bytes [0x345, 97, 98, 0x898, 120, 121, 122]) 5 4 = [] ∧
    slice (utf8Bytes [0x345, 97, 98, 0x898, 120, 121, 122]) 1 7
        = utf8Bytes [97, 98, 0x898, 120, 121, 122] := by
  have h := slice_utf8Bytes [0x345, 97, 98, 0x898, 120, 121, 122] (by decide)
  refine ⟨?_, ?_, ?_, ?_⟩ <;> rw [h] <;> rfl

/-- C3: `till(text, k)` concatenated with `from(text, k)` reconstructs
`text`, for every `k ≤ length(text)`. -/
theorem till_append_from (cs : List Nat) (h : ∀ c ∈ cs, ValidScalar c)
    (k : Nat) (hk : k ≤ len (utf8Bytes cs)) :
    till (utf8Bytes cs) k ++ «from» (utf8Bytes cs) k = utf8Bytes cs := by
  have h' : ∀ c ∈ cs, c < 0x110000 := fun c hc => (h c hc).lt_limit
  unfold till «from»
  rw [len_utf8Bytes cs h', slice_utf8Bytes cs h' 0 k, slice_utf8Bytes cs h' k cs.length,
    List.drop_zero, List.take_length, ← utf8Bytes_append, List.take_append_drop]

theorem till_append_from_witness :
    (∀ c ∈ [104, 0x345], ValidScalar c) ∧ 1 ≤ len (utf8Bytes [104, 0x345]) ∧
    till (utf8Bytes [104, 0x345]) 1 ++ «from» (utf8Bytes [104, 0x345]) 1
      = utf8Bytes [104, 0x345] :=
  ⟨by decide, by simp [utf8Bytes, utf8Encode, len, utf8CharLen],
    till_append_from [104, 0x345] (by decide) 1
      (by simp [utf8Bytes, utf8Encode, len, utf8CharLen])⟩

/-- C4: an end index at or past the character length is clamped, so
`slice(text, begin, end) = from(text, begin)` whenever `end ≥ length(text)`. -/
theorem slice_end_clamp (cs : List Nat) (h : ∀ c ∈ cs, ValidScalar c)
    («begin» «end» : Nat) (he : len (utf8Bytes cs) ≤ «end») :
    slice (utf8Bytes cs) «begin» «end» = «from» (utf8Bytes cs) «begin» := by
  have h' : ∀ c ∈ cs, c < 0x110000 := fun c hc => (h c hc).lt_limit
  rw [len_utf8Bytes cs h'] at he
  unfold «from»
  rw [len_utf8Bytes cs h', slice_utf8Bytes cs h', slice_utf8Bytes cs h',
    List.take_length, List.take_of_length_le he]

theorem slice_end_clamp_witness :
    (∀ c ∈ [104, 105], ValidScalar c) ∧ len (utf8Bytes [104, 105]) ≤ 9 ∧
    slice (utf8Bytes [104, 105]) 1 9 = «from» (utf8Bytes [104, 105]) 1 :=
  ⟨by decide, by simp [utf8Bytes, utf8Encode, len, utf8CharLen],
    slice_end_clamp [104, 105] (by decide) 1 9
      (by simp [utf8Bytes, utf8Encode, len, utf8CharLen])⟩

/-- C5: an inverted range `begin > end` yields the empty view, for every
byte sequence, as a defined degenerate result. -/
theorem slice_inverted_empty (s : List Nat) («begin» «end» : Nat)
    (h : «end» < «begin») : slice s «begin» «end» = [] := by
  unfold slice
  rw [if_pos h]

theorem slice_inverted_empty_witness :
    1 < 3 ∧ slice (utf8Bytes [104, 105, 106, 107]) 3 1 = [] :=
  ⟨by decide, slice_inverted_empty (utf8Bytes [104, 105, 106, 107]) 3 1 (by decide)⟩

/-- C6: an out-of-range begin index, `begin ≥ length(text)`, makes
`from(text, begin)` and every `slice(text, begin, end)` empty. -/
theorem from_out_of_range_empty (s : List Nat) («begin» : Nat)
    (h : len s ≤ «begin») :
    «from» s «begin» = [] ∧ ∀ «end» : Nat, slice s «begin» «end» = [] := by
  have hnone : nthCharOffset s «begin» = none :=
    (nthCharOffset_eq_none_iff s «begin»).mpr h
  have hall : ∀ e : Nat, slice s «begin» e = [] := by
    intro e
    unfold slice
    by_cases hbe : e < «begin»
    · rw [if_pos hbe]
    · rw [if_neg hbe, hnone]
      rfl
  exact ⟨by unfold «from»; exact hall (len s), hall⟩

theorem from_out_of_range_empty_witness :
    len (utf8Bytes [97]) ≤ 5 ∧ «from» (utf8Bytes [97]) 5 = [] ∧
    slice (utf8Bytes [97]) 5 2 = [] :=
  ⟨by simp [utf8Bytes, utf8Encode, len, utf8CharLen],
    (from_out_of_range_empty (utf8Bytes [97]) 5
      (by simp [utf8Bytes, utf8Encode, len, utf8CharLen])).1,
    (from_out_of_range_empty (utf8Bytes [97]) 5
      (by simp [utf8Bytes, utf8Encode, len, utf8CharLen])).2 2⟩

/-- C7: `len` counts the Unicode scalar values of the decoded text, the
empty input yields 0, and the 3-scalar-value astronaut emoji sequence
(U+1F468, U+200D, U+1F680) yields 3; as a total function it never fails. -/
theorem len_counts_scalars :
    (∀ cs : List Nat, (∀ c ∈ cs, ValidScalar c) → len (utf8Bytes cs) = cs.length) ∧
    len [] = 0 ∧
    len (utf8Bytes [0x1F468, 0x200D, 0x1F680]) = 3 := by
  refine ⟨fun cs h => len_utf8Bytes cs fun c hc => (h c hc).lt_limit, ?_, ?_⟩
  · rw [len]
  · exact len_utf8Bytes _ (by decide)

theorem len_counts_scalars_witness :
    (∀ c ∈ [104, 0x898], ValidScalar c) ∧ len (utf8Bytes [104, 0x898]) = 2 := by
  refine ⟨by decide, ?_⟩
  have h := len_counts_scalars.1 [104, 0x898] (by decide)
  simpa using h

/-- C8: the byte-index arithmetic inside `slice` is safe on every valid
input: each located start offset, and the sum `start_pos + end_pos`
computed when the range is not inverted, stays within the byte length and
on a character boundary, so no out-of-bounds access and no panic can
occur (the embedded operations are moreover total by construction). -/
theorem slice_index_arithmetic_safe (cs : List Nat) (h : ∀ c ∈ cs, ValidScalar c)
    («begin» «end» : Nat) :
    (∀ start_pos, nthCharOffset (utf8Bytes cs) «begin» = some start_pos →
      start_pos ≤ (utf8Bytes cs).length ∧
      start_pos ∈ charBoundaries (utf8Bytes cs)) ∧
    (¬ «end» < «begin» →
      ∀ start_pos end_pos, nthCharOffset (utf8Bytes cs) «begin» = some start_pos →
        nthCharOffset (List.drop start_pos (utf8Bytes cs)) («end» - «begin») = some end_pos →
        start_pos + end_pos ≤ (utf8Bytes cs).length ∧
        start_pos + end_pos ∈ charBoundaries (utf8Bytes cs)) := by
  have h' : ∀ c ∈ cs, c < 0x110000 := fun c hc => (h c hc).lt_limit
  constructor
  · intro p hp
    rw [nthCharOffset_utf8Bytes cs h'] at hp
    by_cases hb : «begin» < cs.length
    · rw [if_pos hb] at hp
      have hpv : p = byteOffset cs «begin» := by simpa using hp.symm
      subst hpv
      exact ⟨byteOffset_le_length cs _, byteOffset_mem_charBoundaries cs h' (le_of_lt hb)⟩
    · rw [if_neg hb] at hp
      exact absurd hp (by simp)
  · intro hbe p q hp hq
    rw [nthCharOffset_utf8Bytes cs h'] at hp
    by_cases hb : «begin» < cs.length
    · rw [if_pos hb] at hp
      have hpv : p = byteOffset cs «begin» := by simpa using hp.symm
      subst hpv
      rw [drop_byteOffset] at hq
      rw [nthCharOffset_utf8Bytes _ fun x hx => h' x (List.mem_of_mem_drop hx)] at hq
      by_cases hq' : «end» - «begin» < (List.drop «begin» cs).length
      · rw [if_pos hq'] at hq
        have hqv : q = byteOffset (List.drop «begin» cs) («end» - «begin») := by
          simpa using hq.symm
        subst hqv
        rw [← byteOffset_add]
        rw [List.length_drop] at hq'
        exact ⟨byteOffset_le_length cs _,
          byteOffset_mem_charBoundaries cs h' (by omega)⟩
      · rw [if_neg hq'] at hq
        exact absurd hq (by simp)
    · rw [if_neg hb] at hp
      exact absurd hp (by simp)

theorem slice_index_arithmetic_safe_witness :
    (∀ c ∈ [104], ValidScalar c) ∧
    0 ≤ (utf8Bytes [104]).length ∧ 0 ∈ charBoundaries (utf8Bytes [104]) :=
  ⟨by decide,
    (slice_index_arithmetic_safe [104] (by decide) 0 1).1 0
      (by simp [utf8Bytes, utf8Encode, nthCharOffset])⟩

/-- C9: every view returned by `slice`, `from`, or `till` is the
contiguous byte range between two character-boundary offsets of the
input, hence itself a valid encoded text fragment. -/
theorem views_on_char_boundaries (cs : List Nat) (h : ∀ c ∈ cs, ValidScalar c)
    («begin» «end» : Nat) :
    (∃ i j, i ≤ j ∧ j ≤ (utf8Bytes cs).length ∧
      i ∈ charBoundaries (utf8Bytes cs) ∧ j ∈ charBoundaries (utf8Bytes cs) ∧
      slice (utf8Bytes cs) «begin» «end» = List.drop i (List.take j (utf8Bytes cs)) ∧
      ∃ ds, (∀ c ∈ ds, ValidScalar c) ∧
        slice (utf8Bytes cs) «begin» «end» = utf8Bytes ds) ∧
    (∃ i j, i ≤ j ∧ j ≤ (utf8Bytes cs).length ∧
      i ∈ charBoundaries (utf8Bytes cs) ∧ j ∈ charBoundaries (utf8Bytes cs) ∧
      «from» (utf8Bytes cs) «begin» = List.drop i (List.take j (utf8Bytes cs)) ∧
      ∃ ds, (∀ c ∈ ds, ValidScalar c) ∧
        «from» (utf8Bytes cs) «begin» = utf8Bytes ds) ∧
    (∃ i j, i ≤ j ∧ j ≤ (utf8Bytes cs).length ∧
      i ∈ charBoundaries (utf8Bytes cs) ∧ j ∈ charBoundaries (utf8Bytes cs) ∧
      till (utf8Bytes cs) «end» = List.drop i (List.take j (utf8Bytes cs)) ∧
      ∃ ds, (∀ c ∈ ds, ValidScalar c) ∧
        till (utf8Bytes cs) «end» = utf8Bytes ds) := by
  refine ⟨slice_is_boundary_view cs h «begin» «end», ?_, ?_⟩
  · unfold «from»
    exact slice_is_boundary_view cs h «begin» (len (utf8Bytes cs))
  · unfold till
    exact slice_is_boundary_view cs h 0 «end»

theorem views_on_char_boundaries_witness :
    ∃ i j, i ≤ j ∧ j ≤ (utf8Bytes [104]).length ∧
      i ∈ charBoundaries (utf8Bytes [104]) ∧ j ∈ charBoundaries (utf8Bytes [104]) ∧
      slice (utf8Bytes [104]) 0 1 = List.drop i (List.take j (utf8Bytes [104])) ∧
      ∃ ds, (∀ c ∈ ds, ValidScalar c) ∧ slice (utf8Bytes [104]) 0 1 = utf8Bytes ds :=
  (views_on_char_boundaries [104] (by decide) 0 1).1

/-- C10: slicing from an index to the same index returns the empty view,
for every byte sequence and every index, in range or not. -/
theorem slice_same_index_empty (s : List Nat) (n : Nat) : slice s n n = [] := by
  unfold slice
  rw [if_neg (lt_irrefl n)]
  cases hn : nthCharOffset s n with
  | none => rfl
  | some p =>
    have hlt : n < len s := nthCharOffset_some_lt_len s n p hn
    have hne : List.drop p s ≠ [] := drop_nthCharOffset_ne_nil s n p hn
    simp only [Option.some_bind]
    rw [if_neg (by omega : ¬ n ≥ len s)]
    have h0 : nthCharOffset (List.drop p s) 0 = some 0 := by
      cases hd : List.drop p s with
      | nil => exact absurd hd hne
      | cons x xs => rw [nthCharOffset]
    rw [Nat.sub_self, h0]
    simp only [Option.map_some', Option.getD_some]
    rw [Nat.add_zero]
    apply List.drop_eq_nil_of_le
    rw [List.length_take]
    omega

end Utf8Slice
